import Mathlib

/-!
Verification development for the Vocalyn client (voice-note app).

This file gives a shallow embedding of the chat streaming protocol
(`continueChatStream` in the gemini service), the session reconciliation
(`handleSubmit` of `ChatDetailView`), and the Today action-item aggregator
(`getTodaysActionItemsFromNotes` in `notesService.ts`), together with
theorems settling the frozen claims about the spec.

Modelling conventions:
  * JavaScript strings are Lean `String`s; every string operation the code
    uses (`split`, `includes`, `trim`, `substring`, string comparison) is
    re-implemented structurally over `String.data` so that concrete
    instances evaluate by `decide`.
  * An async generator is embedded as a function from its (already
    materialised) backend chunk list to the finite list of actions it
    performs, where an action is either consuming one backend chunk or
    yielding one event; this makes the ordering of consumption vs. yielding
    ("nothing is yielded before the stream has been fully consumed")
    expressible.  A transport failure mid-stream is modelled by the input
    listing the chunks consumed before the failure plus a flag.
  * `JSON.parse` is an external runtime builtin, not repository code; it is
    taken as a parameter `parse : String → Option (List SourceSnippet)`
    (`none` = the exception path).  The code casts the parsed value without
    validation, which this typed parameter idealises.
  * The ambient local date (`new Date()` in `isActionItemForToday`) is
    passed explicitly as the string it is formatted to.
-/

namespace Vocalyn

/-! ## Models of the JavaScript string primitives -/

/-- Does `s` start with `p`?  (Model of a character-list prefix test; used by
the models of `String.prototype.split` and `String.prototype.includes`.) -/
def listStartsWith : List Char → List Char → Bool
  | _, [] => true
  | [], _ :: _ => false
  | a :: as, b :: bs => a = b && listStartsWith as bs

/-- Fuel-indexed worker for `jsSplit`: scan left to right, cutting at each
leftmost non-overlapping occurrence of `sep`.  The fuel only bounds the
recursion; any fuel strictly greater than the input length gives the real
result (see `jsSplitAux_fuel`). -/
def jsSplitAux (sep : List Char) : Nat → List Char → List (List Char)
  | _, [] => [[]]
  | 0, s => [s]
  | fuel+1, c :: rest =>
    if listStartsWith (c :: rest) sep then
      [] :: jsSplitAux sep fuel (List.drop (sep.length - 1) rest)
    else
      match jsSplitAux sep fuel rest with
      | [] => [[c]]
      | p :: ps => (c :: p) :: ps

/-- Model of JavaScript `s.split(sep)` for a non-empty literal separator:
non-overlapping leftmost matches, keeping empty parts. -/
def jsSplit (s sep : String) : List String :=
  (jsSplitAux sep.data (s.data.length + 1) s.data).map (fun l => ⟨l⟩)

/-- Does `s` contain `sub` as a contiguous subsequence?  Worker on
character lists. -/
def listContainsSeq (sub : List Char) : List Char → Bool
  | [] => listStartsWith [] sub
  | c :: rest => listStartsWith (c :: rest) sub || listContainsSeq sub rest

/-- Model of JavaScript `s.includes(sub)`. -/
def jsIncludes (s sub : String) : Bool :=
  listContainsSeq sub.data s.data

/-- Model of JavaScript `s.trim()`. -/
def jsTrim (s : String) : String :=
  ⟨((s.data.dropWhile Char.isWhitespace).reverse.dropWhile Char.isWhitespace).reverse⟩

/-- Model of JavaScript `s.substring(0, n)` (the code points of the strings
involved all lie in the basic plane, where code-unit and code-point counts
agree). -/
def jsSubstringTo (s : String) (n : Nat) : String := ⟨s.data.take n⟩

/-- Three-way lexicographic comparison of character lists by code point;
model of the sign of JavaScript string comparison (`localeCompare` on the
plain ASCII `HH:MM` strings the code compares agrees with code-unit
order). -/
def charListCmp : List Char → List Char → Int
  | [], [] => 0
  | [], _ :: _ => -1
  | _ :: _, [] => 1
  | a :: as, b :: bs =>
    if a.toNat < b.toNat then -1
    else if b.toNat < a.toNat then 1
    else charListCmp as bs

/-- Sign model of `a.localeCompare(b)`. -/
def jsCompareStrings (s t : String) : Int := charListCmp s.data t.data

/-- Stable insertion used by `stableSortBy`: `x` is placed before the first
element that is not strictly smaller, so earlier-listed elements win ties. -/
def stableInsert (lt : α → α → Bool) (x : α) : List α → List α
  | [] => [x]
  | y :: ys => if lt y x then y :: stableInsert lt x ys else x :: y :: ys

/-- Model of JavaScript `Array.prototype.sort(cmp)` (which is stable):
the unique stable reordering that sorts by the strict relation `lt`. -/
def stableSortBy (lt : α → α → Bool) : List α → List α
  | [] => []
  | x :: xs => stableInsert lt x (stableSortBy lt xs)

/-! ## Data model (`types.ts` shapes used by the core) -/

/-- A note-grounded citation `{noteId, snippet}`. -/
structure SourceSnippet where
  noteId : String
  snippet : String
deriving DecidableEq, Repr

/-- A web citation `{uri, title}`. -/
structure WebSource where
  uri : String
  title : String
deriving DecidableEq, Repr

/-- An action item of a note.  `time` is the optional `HH:MM` field. -/
structure ActionItem where
  text : String
  dueDate : String
  time : Option String
  completed : Bool
deriving DecidableEq, Repr

/-- A stored note, as read by the chat and calendar features.  The
`emotionAnalysis` blob is never read by the modelled operations and is
omitted. -/
structure ProcessedNoteWithId where
  id : String
  createdAt : String
  refinedNote : String
  actionItems : List ActionItem
deriving DecidableEq, Repr

/-- Chat message roles. -/
inductive Role
  | user
  | model
deriving DecidableEq, Repr

/-- The structured assistant payload `{answer, sources, webSources?}`. -/
structure AskAIResponse where
  answer : String
  sources : List SourceSnippet
  webSources : Option (List WebSource)
deriving DecidableEq, Repr

/-- A chat message content: plain string (user turns) or structured
assistant payload. -/
inductive MsgContent
  | str (s : String)
  | obj (r : AskAIResponse)
deriving DecidableEq, Repr

/-- A chat message. -/
structure ChatMessage where
  role : Role
  content : MsgContent
deriving DecidableEq, Repr

/-- A chat session. -/
structure ChatSession where
  id : String
  createdAt : String
  title : String
  noteIds : List String
  messages : List ChatMessage
deriving DecidableEq, Repr

/-! ## Streaming answer protocol (`continueChatStream`) -/

/-- Grounding metadata entry `grounding.web` of a backend chunk. -/
structure GroundingWeb where
  uri : String
  title : Option String
deriving DecidableEq, Repr

/-- One entry of `groundingMetadata.groundingChunks`. -/
structure GroundingChunkEntry where
  web : Option GroundingWeb
deriving DecidableEq, Repr

/-- One chunk of the backend stream, collapsing the optional chain
`chunk.candidates?.[0]?.groundingMetadata?.groundingChunks` into one
optional field. -/
structure GenChunk where
  text : Option String
  groundingChunks : Option (List GroundingChunkEntry)
deriving DecidableEq, Repr

/-- One step of the generator's observable behaviour: consuming a backend
chunk, yielding an event to the caller, or raising (the `throw new Error`
of the catch blocks). -/
inductive StreamAction
  | consume (c : GenChunk)
  | yieldText (t : String)
  | yieldSources (s : List SourceSnippet)
  | yieldWebSources (w : List WebSource)
  | raiseError
deriving DecidableEq, Repr

/-- The in-band separator literal of the grounded-only wire convention. -/
def sourcesSeparator : String := "%%SOURCES_JSON%%"

/-- The `fullText` accumulated by the grounded-only loop:
`if (chunk.text) fullText += chunk.text` over the stream. -/
def nsFullText (chunks : List GenChunk) : String :=
  chunks.foldl
    (fun acc c =>
      match c.text with
      | some t => if t = "" then acc else acc ++ t
      | none => acc) ""

/-- Grounded-only mode (`useGoogleSearch = false`) of `continueChatStream`:
consume the whole stream into `fullText`, split on the separator, yield the
pre-separator text, then attempt the citation parse; on parse failure yield
nothing further.  `streamOk = false` means the backend stream threw after
the listed chunks, which the catch block converts into an error. -/
def noSearchTrace (parse : String → Option (List SourceSnippet))
    (chunks : List GenChunk) (streamOk : Bool) : List StreamAction :=
  let consumes := chunks.map StreamAction.consume
  if streamOk then
    let fullText := nsFullText chunks
    if jsIncludes fullText sourcesSeparator then
      let parts := jsSplit fullText sourcesSeparator
      let answerText := parts.getD 0 ""
      let jsonPart := parts.getD 1 ""
      consumes ++ [StreamAction.yieldText answerText] ++
        (match parse jsonPart with
         | some ss => [StreamAction.yieldSources ss]
         | none => [])
    else
      consumes ++ [StreamAction.yieldText fullText]
  else
    consumes ++ [StreamAction.raiseError]

/-- The web sources pushed for one chunk: every `grounding.web` entry,
with title fallback `grounding.web.title || grounding.web.uri` (a missing
or empty title falls back to the uri). -/
def chunkWebSources (c : GenChunk) : List WebSource :=
  match c.groundingChunks with
  | none => []
  | some gcs =>
    gcs.flatMap (fun g =>
      match g.web with
      | some w =>
        [{ uri := w.uri
           title :=
             match w.title with
             | some t => if t = "" then w.uri else t
             | none => w.uri }]
      | none => [])

/-- All web sources collected from the stream, in push order. -/
def collectWebSources (chunks : List GenChunk) : List WebSource :=
  chunks.flatMap chunkWebSources

/-- Model of inserting one `[key, value]` entry into a JavaScript `Map`
under construction: an existing key keeps its position but its value is
overwritten; a fresh key is appended. -/
def jsMapInsert (entries : List (String × WebSource)) (kv : String × WebSource) :
    List (String × WebSource) :=
  if entries.any (fun p => p.1 == kv.1) then
    entries.map (fun p => if p.1 == kv.1 then (p.1, kv.2) else p)
  else
    entries ++ [kv]

/-- Model of `Array.from(new Map(ws.map(item => [item.uri, item])).values())`. -/
def uniqueWebSources (ws : List WebSource) : List WebSource :=
  ((ws.map (fun w => (w.uri, w))).foldl jsMapInsert []).map Prod.snd

/-- The streaming loop of the search-augmented mode: each chunk is
consumed and its text, when truthy, is forwarded immediately. -/
def searchLoopActs (chunks : List GenChunk) : List StreamAction :=
  chunks.flatMap (fun c =>
    StreamAction.consume c ::
      (match c.text with
       | some t => if t = "" then [] else [StreamAction.yieldText t]
       | none => []))

/-- Search-augmented mode (`useGoogleSearch = true`) of `continueChatStream`:
each chunk's text is forwarded immediately; after the stream completes the
deduplicated web sources are yielded as one terminal event iff non-empty. -/
def searchTrace (chunks : List GenChunk) (streamOk : Bool) : List StreamAction :=
  let loopActs := searchLoopActs chunks
  if streamOk then
    let unique := uniqueWebSources (collectWebSources chunks)
    loopActs ++ (if unique.length > 0 then [StreamAction.yieldWebSources unique] else [])
  else
    loopActs ++ [StreamAction.raiseError]

/-- Model of `continueChatStream`: dispatch on `useGoogleSearch`.  The notes, the
question and the history only enter the prompt sent to the backend, whose
response is the chunk list; they do not influence the client-side event
logic, and the history is read, never written. -/
def continueChatStream (_notes : List ProcessedNoteWithId) (_question : String)
    (_history : List ChatMessage) (useGoogleSearch : Bool)
    (parse : String → Option (List SourceSnippet))
    (chunks : List GenChunk) (streamOk : Bool) : List StreamAction :=
  if useGoogleSearch then searchTrace chunks streamOk
  else noSearchTrace parse chunks streamOk

/-! ## Today aggregator (`notesService.ts`) -/

/-- One aggregated entry of the Today view. -/
structure TodaysActionItem where
  noteId : String
  itemIndex : Nat
  item : ActionItem
  noteTitle : String
deriving DecidableEq, Repr

/-- Model of `isActionItemForToday`: an empty `dueDate` never matches; otherwise the
due date must string-equal the caller's local `YYYY-MM-DD` date, which the
code computes from `new Date()` and is passed here explicitly. -/
def isActionItemForToday (localTodayStr dueDate : String) : Bool :=
  if dueDate = "" then false else dueDate = localTodayStr

/-- The note title shown for an aggregated item:
`note.refinedNote.split('\n')[0].replace(regex, '') || 'Untitled Note'`,
where the regex strips one leading hash and the whitespace after it. -/
def deriveNoteTitle (refinedNote : String) : String :=
  let firstLine := (jsSplit refinedNote "\n").getD 0 ""
  let stripped : String :=
    match firstLine.data with
    | '#' :: rest => ⟨rest.dropWhile Char.isWhitespace⟩
    | _ => firstLine
  if stripped = "" then "Untitled Note" else stripped

/-- The inner `forEach((item, index))` of the aggregator: push every
incomplete item due today, remembering its index. -/
def collectTodayItems (noteId noteTitle localTodayStr : String) :
    Nat → List ActionItem → List TodaysActionItem
  | _, [] => []
  | i, item :: rest =>
    (if isActionItemForToday localTodayStr item.dueDate && !item.completed then
      [⟨noteId, i, item, noteTitle⟩]
     else []) ++ collectTodayItems noteId noteTitle localTodayStr (i + 1) rest

/-- The unsorted aggregation over all notes. -/
def collectTodays (localTodayStr : String) (notes : List ProcessedNoteWithId) :
    List TodaysActionItem :=
  notes.flatMap (fun n =>
    collectTodayItems n.id (deriveNoteTitle n.refinedNote) localTodayStr 0 n.actionItems)

/-- JavaScript truthiness of the optional `time` field: absent and empty
strings are falsy. -/
def timeTruthy : Option String → Bool
  | none => false
  | some t => t ≠ ""

/-- The comparator of the Today view, line for line:
both times truthy compares them; a truthy `aTime` alone returns `-1`
(so the timed item sorts first); a truthy `bTime` alone returns `1`. -/
def todayCmp (a b : TodaysActionItem) : Int :=
  let aTime := a.item.time
  let bTime := b.item.time
  if timeTruthy aTime && timeTruthy bTime then
    jsCompareStrings (aTime.getD "") (bTime.getD "")
  else if timeTruthy aTime then -1
  else if timeTruthy bTime then 1
  else 0

/-- Model of `getTodaysActionItemsFromNotes`: aggregate, then stable-sort with the
Today comparator. -/
def getTodaysActionItemsFromNotes (localTodayStr : String)
    (notes : List ProcessedNoteWithId) : List TodaysActionItem :=
  stableSortBy (fun a b => todayCmp a b < 0) (collectTodays localTodayStr notes)

/-! ## Session reconciliation (`handleSubmit` of `ChatDetailView`) -/

/-- One item yielded by `continueChatStream` as consumed by `handleSubmit`:
`{text?, sources?, webSources?}`. -/
structure StreamChunk where
  text : Option String
  sources : Option (List SourceSnippet)
  webSources : Option (List WebSource)
deriving DecidableEq, Repr

/-- The outcome of driving the stream: either it ran to completion yielding
`events`, or it threw after yielding `eventsBefore`. -/
inductive StreamOutcome
  | ok (events : List StreamChunk)
  | err (eventsBefore : List StreamChunk)
deriving DecidableEq, Repr

/-- The local accumulators of the streaming loop. -/
structure StreamAcc where
  fullAnswer : String
  collectedSources : List SourceSnippet
  collectedWebSources : List WebSource
deriving DecidableEq, Repr

/-- One loop iteration's accumulator update:
`if (chunk.text) fullAnswer += ...; if (chunk.sources) collected = ...;
if (chunk.webSources) collected = ...` (arrays are always truthy). -/
def stepAcc (a : StreamAcc) (c : StreamChunk) : StreamAcc :=
  { fullAnswer :=
      match c.text with
      | some t => if t = "" then a.fullAnswer else a.fullAnswer ++ t
      | none => a.fullAnswer
    collectedSources :=
      match c.sources with
      | some s => s
      | none => a.collectedSources
    collectedWebSources :=
      match c.webSources with
      | some w => w
      | none => a.collectedWebSources }

/-- The user message appended for the question. -/
def userMessageOf (q : String) : ChatMessage := ⟨Role.user, MsgContent.str q⟩

/-- The placeholder assistant message `{role:'model', content:{answer:'',
sources:[]}}` appended while the stream is in flight. -/
def placeholderMessage : ChatMessage :=
  ⟨Role.model, MsgContent.obj ⟨"", [], none⟩⟩

/-- The per-event optimistic UI update: rewrite the last message in place
when it is a structured model message, keeping previous citation lists when
the respective accumulator is still empty. -/
def uiUpdate (msgs : List ChatMessage) (a : StreamAcc) : List ChatMessage :=
  match msgs.getLast? with
  | none => msgs
  | some lastMsg =>
    match lastMsg.content with
    | MsgContent.str _ => msgs
    | MsgContent.obj r =>
      if lastMsg.role = Role.model then
        msgs.dropLast ++
          [⟨Role.model, MsgContent.obj
            { answer := a.fullAnswer
              sources :=
                if a.collectedSources.length ≠ 0 then a.collectedSources else r.sources
              webSources :=
                if a.collectedWebSources.length ≠ 0 then some a.collectedWebSources
                else r.webSources }⟩]
      else msgs

/-- The streaming loop's effect on the accumulators and the displayed
message list. -/
def streamFoldState (msgs : List ChatMessage) (evs : List StreamChunk) :
    StreamAcc × List ChatMessage :=
  evs.foldl
    (fun (p : StreamAcc × List ChatMessage) c =>
      let a := stepAcc p.1 c
      (a, uiUpdate p.2 a))
    (⟨"", [], []⟩, msgs)

/-- Model of `finalMessages[finalMessages.length - 1] = x` on the non-empty working
copy. -/
def jsSetLast (l : List α) (x : α) : List α := l.dropLast ++ [x]

/-- The final assistant message assembled from the stream events: the
concatenated answer text plus the last-received citation lists. -/
def assembledFinalMessage (events : List StreamChunk) : ChatMessage :=
  let a := events.foldl stepAcc ⟨"", [], []⟩
  ⟨Role.model, MsgContent.obj ⟨a.fullAnswer, a.collectedSources, some a.collectedWebSources⟩⟩

/-- The final session object built on stream completion (title derivation
plus replacement of the placeholder). -/
def finalSessionOf (session : ChatSession) (question : String)
    (events : List StreamChunk) : ChatSession :=
  let userMessage := userMessageOf question
  let currentMessages := (session.messages ++ [userMessage]) ++ [placeholderMessage]
  let isFirstMessage := session.messages.length = 0
  { session with
      title := if isFirstMessage then jsSubstringTo question 50 else session.title
      messages := jsSetLast currentMessages (assembledFinalMessage events) }

/-- The arguments `handleSubmit` passes to `continueChatStream`. -/
structure StreamArgs where
  notes : List ProcessedNoteWithId
  question : String
  history : List ChatMessage
  useGoogleSearch : Bool
deriving DecidableEq, Repr

/-- The observable result of one `handleSubmit` run: the session state left
behind, the sessions handed to the persistence collaborator
(`onSessionUpdate`) in order, whether the error banner was set, and the
stream invocation (if any). -/
structure SubmitResult where
  stateMessages : List ChatMessage
  stateTitle : String
  persisted : List ChatSession
  errorShown : Bool
  streamCall : Option StreamArgs
deriving DecidableEq, Repr

/-- Model of `handleSubmit`: guard, optimistic append of the user message and the
placeholder, stream drive, then either final assembly plus one persistence
call, or placeholder rollback plus the error banner. -/
def handleSubmit (isStreaming : Bool) (question : String) (session : ChatSession)
    (allNotes : List ProcessedNoteWithId) (useGoogleSearch : Bool)
    (outcome : StreamOutcome) : SubmitResult :=
  if isStreaming || jsTrim question = "" then
    ⟨session.messages, session.title, [], false, none⟩
  else
    let questionToAsk := question
    let userMessage := userMessageOf questionToAsk
    let currentMessages := (session.messages ++ [userMessage]) ++ [placeholderMessage]
    let contextNotes := allNotes.filter (fun n => session.noteIds.contains n.id)
    let args : StreamArgs := ⟨contextNotes, questionToAsk, session.messages, useGoogleSearch⟩
    match outcome with
    | StreamOutcome.ok events =>
      let finalSession := finalSessionOf session questionToAsk events
      ⟨finalSession.messages, finalSession.title, [finalSession], false, some args⟩
    | StreamOutcome.err evs =>
      let during := (streamFoldState currentMessages evs).2
      ⟨during.dropLast, session.title, [], true, some args⟩

/-- One step of the `handleSubmit` timeline, for ordering statements. -/
inductive HAction
  | streamEvent (c : StreamChunk)
  | persistCall (s : ChatSession)
  | showError
deriving DecidableEq, Repr

/-- The `handleSubmit` timeline: every stream event is consumed before the
single persistence call (success) or the error banner (failure); a rejected
submission does nothing. -/
def handleSubmitTrace (isStreaming : Bool) (question : String) (session : ChatSession)
    (outcome : StreamOutcome) : List HAction :=
  if isStreaming || jsTrim question = "" then []
  else
    match outcome with
    | StreamOutcome.ok events =>
      events.map HAction.streamEvent ++
        [HAction.persistCall (finalSessionOf session question events)]
    | StreamOutcome.err evs =>
      evs.map HAction.streamEvent ++ [HAction.showError]

/-! ## Named constants of the worked streaming example -/

/-- The pre-separator answer of the worked grounded-mode example. -/
def skyAnswer : String := "The sky is blue.\n"

/-- The post-separator JSON segment of the worked grounded-mode example. -/
def skyJson : String := "\n[\x7b\"noteId\":\"n1\",\"snippet\":\"sky note\"\x7d]"

/-- The full buffered backend text of the worked grounded-mode example. -/
def skyFull : String :=
  "The sky is blue.\n%%SOURCES_JSON%%\n[\x7b\"noteId\":\"n1\",\"snippet\":\"sky note\"\x7d]"

/-- The citation list of the worked grounded-mode example. -/
def skySnippets : List SourceSnippet := [⟨"n1", "sky note"⟩]

/-- The worked Today-aggregator example note: three incomplete items all due
on the same date, with times "09:00", absent, "08:00" in that order. -/
def choresNote : ProcessedNoteWithId :=
  ⟨"note1", "2025-01-01", "# Chores",
    [⟨"a", "2025-01-02", some "09:00", false⟩,
     ⟨"b", "2025-01-02", none, false⟩,
     ⟨"c", "2025-01-02", some "08:00", false⟩]⟩

/-! ## Theorems: streaming answer protocol -/

/-- Claim C2: in grounded-only mode, when the concatenation of the streamed
text chunks is the worked example text and `JSON.parse` succeeds on its
post-separator segment, `continueChatStream` performs exactly: consume every
backend chunk, then yield one text event with the pre-separator text, then
yield one sources event with the parsed citation array — so nothing is
yielded before the whole backend stream has been consumed. -/
theorem c2_grounded_example_trace (notes : List ProcessedNoteWithId)
    (question : String) (history : List ChatMessage)
    (parse : String → Option (List SourceSnippet)) (chunks : List GenChunk)
    (hfull : nsFullText chunks = skyFull)
    (hparse : parse skyJson = some skySnippets) :
    continueChatStream notes question history false parse chunks true =
      chunks.map StreamAction.consume ++
        [StreamAction.yieldText skyAnswer, StreamAction.yieldSources skySnippets] := by
  have hinc : jsIncludes skyFull sourcesSeparator = true := by decide
  have hsplit : jsSplit skyFull sourcesSeparator = [skyAnswer, skyJson] := by decide
  simp [continueChatStream, noSearchTrace, hfull, hinc, hsplit, hparse]

/-- Witness for C2 on a one-chunk stream and a concrete parse function. -/
theorem c2_grounded_example_trace_witness :
    continueChatStream [] "q" [] false
      (fun s => if s = skyJson then some skySnippets else none)
      [⟨some skyFull, none⟩] true =
      [StreamAction.consume ⟨some skyFull, none⟩,
       StreamAction.yieldText skyAnswer, StreamAction.yieldSources skySnippets] :=
  c2_grounded_example_trace [] "q" []
    (fun s => if s = skyJson then some skySnippets else none)
    [⟨some skyFull, none⟩] (by decide) (by decide)

/-- Claim C3: in grounded-only mode, when the full buffered text does not
contain the separator, `continueChatStream` consumes the whole stream and
then yields exactly one text event carrying the entire buffered text; no
citation event is produced. -/
theorem c3_no_separator_full_text (notes : List ProcessedNoteWithId)
    (question : String) (history : List ChatMessage)
    (parse : String → Option (List SourceSnippet)) (chunks : List GenChunk)
    (hno : jsIncludes (nsFullText chunks) sourcesSeparator = false) :
    continueChatStream notes question history false parse chunks true =
      chunks.map StreamAction.consume ++
        [StreamAction.yieldText (nsFullText chunks)] := by
  simp [continueChatStream, noSearchTrace, hno]

/-- Witness for C3 on a one-chunk separator-free stream. -/
theorem c3_no_separator_full_text_witness :
    continueChatStream [] "q" [] false (fun _ => none) [⟨some "hello", none⟩] true =
      [StreamAction.consume ⟨some "hello", none⟩, StreamAction.yieldText "hello"] :=
  (c3_no_separator_full_text [] "q" [] (fun _ => none) [⟨some "hello", none⟩]
    (by decide)).trans (by decide)

/-- Claim C4: in grounded-only mode, when the buffered text contains the
separator but the post-separator segment fails to parse, the pre-separator
text event is still yielded, no sources event follows, and the trace ends
normally (no error action; the yielded text stands). -/
theorem c4_parse_failure_recovered (notes : List ProcessedNoteWithId)
    (question : String) (history : List ChatMessage)
    (parse : String → Option (List SourceSnippet)) (chunks : List GenChunk)
    (hsep : jsIncludes (nsFullText chunks) sourcesSeparator = true)
    (hbad : parse ((jsSplit (nsFullText chunks) sourcesSeparator).getD 1 "") = none) :
    continueChatStream notes question history false parse chunks true =
      chunks.map StreamAction.consume ++
        [StreamAction.yieldText
          ((jsSplit (nsFullText chunks) sourcesSeparator).getD 0 "")] := by
  simp only [List.getD, List.get?_eq_getElem?] at hbad
  simp [continueChatStream, noSearchTrace, hsep, hbad]

/-- Witness for C4 on a one-chunk stream whose post-separator segment is
rejected by the parse function. -/
theorem c4_parse_failure_recovered_witness :
    continueChatStream [] "q" [] false (fun _ => none)
      [⟨some "ans%%SOURCES_JSON%%notjson", none⟩] true =
      [StreamAction.consume ⟨some "ans%%SOURCES_JSON%%notjson", none⟩,
       StreamAction.yieldText "ans"] :=
  (c4_parse_failure_recovered [] "q" [] (fun _ => none)
    [⟨some "ans%%SOURCES_JSON%%notjson", none⟩] (by decide) (by decide)).trans (by decide)

/-! ## Lemmas: the JavaScript `Map` deduplication -/

/-- Membership after one `Map` insertion: the element is the inserted entry,
or an untouched entry whose key differs from the inserted key. -/
theorem mem_jsMapInsert {acc : List (String × WebSource)} {kv p : String × WebSource}
    (hp : p ∈ jsMapInsert acc kv) : p = kv ∨ (p ∈ acc ∧ p.1 ≠ kv.1) := by
  unfold jsMapInsert at hp
  by_cases hany : (acc.any (fun q => q.1 == kv.1)) = true
  · rw [if_pos hany] at hp
    obtain ⟨q, hq, hfq⟩ := List.mem_map.1 hp
    by_cases hqk : (q.1 == kv.1) = true
    · left
      rw [if_pos hqk] at hfq
      have hqe : q.1 = kv.1 := beq_iff_eq.1 hqk
      rw [← hfq, hqe]
    · right
      rw [if_neg hqk] at hfq
      subst hfq
      exact ⟨hq, by simpa using hqk⟩
  · rw [if_neg hany] at hp
    rcases List.mem_append.1 hp with h | h
    · right
      refine ⟨h, ?_⟩
      have hall := List.any_eq_false.1 (Bool.not_eq_true _ ▸ hany)
      simpa using hall p h
    · left
      simpa using h

/-- One `Map` insertion preserves distinctness of the keys. -/
theorem jsMapInsert_pairwise {acc : List (String × WebSource)} {kv : String × WebSource}
    (h : List.Pairwise (fun p q => p.1 ≠ q.1) acc) :
    List.Pairwise (fun p q => p.1 ≠ q.1) (jsMapInsert acc kv) := by
  unfold jsMapInsert
  by_cases hany : (acc.any (fun q => q.1 == kv.1)) = true
  · rw [if_pos hany]
    have hfst : ∀ p : String × WebSource,
        ((if p.1 == kv.1 then (p.1, kv.2) else p) : String × WebSource).1 = p.1 := by
      intro p; split <;> rfl
    refine List.pairwise_map.2 (h.imp_of_mem ?_)
    intro a b _ _ hab
    rw [hfst a, hfst b]
    exact hab
  · rw [if_neg hany]
    refine List.pairwise_append.2 ⟨h, List.pairwise_singleton _ _, ?_⟩
    intro a ha b hb
    have hall := List.any_eq_false.1 (Bool.not_eq_true _ ▸ hany)
    have := hall a ha
    rcases List.mem_singleton.1 hb with rfl
    simpa using this

/-- Folding entries into the `Map` keeps the keys pairwise distinct. -/
theorem foldl_jsMapInsert_distinct (entries : List (String × WebSource)) :
    ∀ acc : List (String × WebSource),
      List.Pairwise (fun p q => p.1 ≠ q.1) acc →
      List.Pairwise (fun p q => p.1 ≠ q.1) (entries.foldl jsMapInsert acc) := by
  induction entries with
  | nil => intro acc h; exact h
  | cons e rest ih =>
    intro acc h
    exact ih (jsMapInsert acc e) (jsMapInsert_pairwise h)

/-- Every entry of the `Map` whose key occurs among the folded entries holds
the value of the last such entry ("last occurrence wins"). -/
theorem foldl_jsMapInsert_lastWins (entries : List (String × WebSource)) :
    ∀ acc : List (String × WebSource), ∀ p ∈ entries.foldl jsMapInsert acc,
      ((entries.filter (fun q => q.1 == p.1)).getLast? = some p) ∨
      ((entries.filter (fun q => q.1 == p.1)) = [] ∧ p ∈ acc) := by
  induction entries with
  | nil =>
    intro acc p hp
    right
    exact ⟨rfl, hp⟩
  | cons e rest ih =>
    intro acc p hp
    simp only [List.foldl_cons] at hp
    rcases ih (jsMapInsert acc e) p hp with hlast | ⟨hempty, hmem⟩
    · left
      have hne : rest.filter (fun q => q.1 == p.1) ≠ [] := by
        intro h0
        rw [h0] at hlast
        simp at hlast
      obtain ⟨q, l, hql⟩ := List.exists_cons_of_ne_nil hne
      by_cases he : (e.1 == p.1) = true
      · rw [show List.filter (fun q => q.1 == p.1) (e :: rest) =
            e :: List.filter (fun q => q.1 == p.1) rest from by
              simp [List.filter_cons, he],
          hql, List.getLast?_cons_cons, ← hql]
        exact hlast
      · rw [show List.filter (fun q => q.1 == p.1) (e :: rest) =
            List.filter (fun q => q.1 == p.1) rest from by
              simp [List.filter_cons, he]]
        exact hlast
    · rcases mem_jsMapInsert hmem with heq | ⟨hacc, hne⟩
      · left
        rw [heq]
        rw [show List.filter (fun q => q.1 == e.1) (e :: rest) =
            e :: List.filter (fun q => q.1 == e.1) rest from by
              simp [List.filter_cons],
          show List.filter (fun q => q.1 == e.1) rest = [] from by
            rw [← show p.1 = e.1 from congrArg Prod.fst heq]
            exact hempty]
        rfl
      · right
        have he : (e.1 == p.1) = false := by
          have hnn : e.1 ≠ p.1 := fun h => hne h.symm
          simpa using hnn
        rw [show List.filter (fun q => q.1 == p.1) (e :: rest) =
            List.filter (fun q => q.1 == p.1) rest from by
              simp [List.filter_cons, he],
          hempty]
        exact ⟨rfl, hacc⟩

/-- Every entry of the folded `Map` has its key equal to its value's uri,
provided all folded entries and the accumulator do. -/
theorem foldl_jsMapInsert_shape (entries : List (String × WebSource))
    (hent : ∀ e ∈ entries, e.1 = e.2.uri) :
    ∀ acc : List (String × WebSource), (∀ p ∈ acc, p.1 = p.2.uri) →
      ∀ p ∈ entries.foldl jsMapInsert acc, p.1 = p.2.uri := by
  induction entries with
  | nil => intro acc hacc p hp; exact hacc p hp
  | cons e rest ih =>
    intro acc hacc p hp
    simp only [List.foldl_cons] at hp
    refine ih (fun q hq => hent q (List.mem_cons_of_mem e hq)) (jsMapInsert acc e) ?_ p hp
    · intro q hq
      rcases mem_jsMapInsert hq with heq | ⟨hmem, _⟩
      · rw [heq]
        exact hent e (List.mem_cons_self _ _)
      · exact hacc q hmem

/-- Deduplication by uri: the surviving entry for a uri is the last pushed
web source with that uri. -/
theorem uniqueWebSources_lastWins (ws : List WebSource) :
    ∀ w ∈ uniqueWebSources ws,
      (ws.filter (fun v => v.uri == w.uri)).getLast? = some w := by
  intro w hw
  unfold uniqueWebSources at hw
  obtain ⟨p, hp, hpw⟩ := List.mem_map.1 hw
  rcases foldl_jsMapInsert_lastWins (ws.map (fun v => (v.uri, v))) [] p hp with hlast | ⟨_, hmem⟩
  · rw [List.filter_map, List.getLast?_map] at hlast
    obtain ⟨v, hv, hfv⟩ := Option.map_eq_some'.1 hlast
    have hv2 : v = w := by
      have := congrArg Prod.snd hfv
      simpa [hpw] using this
    have hv1 : v.uri = p.1 := congrArg Prod.fst hfv
    subst hv2
    rw [show p.1 = v.uri from hv1.symm] at hv
    simpa [Function.comp] using hv
  · cases hmem

/-- Deduplication by uri: the surviving entries have pairwise distinct uris. -/
theorem uniqueWebSources_uri_distinct (ws : List WebSource) :
    List.Pairwise (fun v w => v.uri ≠ w.uri) (uniqueWebSources ws) := by
  unfold uniqueWebSources
  have hshape : ∀ p ∈ (ws.map (fun v => (v.uri, v))).foldl jsMapInsert [], p.1 = p.2.uri := by
    refine foldl_jsMapInsert_shape _ ?_ [] (by intro p hp; cases hp)
    intro e he
    obtain ⟨v, _, rfl⟩ := List.mem_map.1 he
    rfl
  have hdist := foldl_jsMapInsert_distinct (ws.map (fun v => (v.uri, v))) []
    List.Pairwise.nil
  refine List.pairwise_map.2 (hdist.imp_of_mem ?_)
  intro a b ha hb hab
  rw [← hshape a ha, ← hshape b hb]
  exact hab

/-- Claim C5 counterexample: for two chunks both referencing uri
"https://a.com" with titles "A" then "", the deduplicated list is NOT
[⟨"https://a.com", "A"⟩] (first occurrence does not win); the `new Map`
construction keeps the last occurrence, whose empty title fell back to the
uri, so the list is [⟨"https://a.com", "https://a.com"⟩]. -/
theorem c5_web_dedup_counterexample :
    uniqueWebSources (collectWebSources
        [⟨some "x", some [⟨some ⟨"https://a.com", some "A"⟩⟩]⟩,
         ⟨some "y", some [⟨some ⟨"https://a.com", some ""⟩⟩]⟩]) ≠
      [⟨"https://a.com", "A"⟩] ∧
    uniqueWebSources (collectWebSources
        [⟨some "x", some [⟨some ⟨"https://a.com", some "A"⟩⟩]⟩,
         ⟨some "y", some [⟨some ⟨"https://a.com", some ""⟩⟩]⟩]) =
      [⟨"https://a.com", "https://a.com"⟩] := by decide

/-- Claim C5 (amended): after a successful search-augmented stream, web
citations are collected with the uri fallback for an absent or empty title
and deduplicated by uri with the LAST occurrence winning (the surviving
entries have pairwise distinct uris); a single terminal webCitations event
is yielded iff the deduplicated list is non-empty, and no webCitations
event is emitted during the loop.  In the worked example (titles "A" then
"" for the same uri) the deduplicated list is
[⟨"https://a.com", "https://a.com"⟩]. -/
theorem c5_web_dedup_amended (notes : List ProcessedNoteWithId) (question : String)
    (history : List ChatMessage) (parse : String → Option (List SourceSnippet))
    (chunks : List GenChunk) :
    (uniqueWebSources (collectWebSources chunks) ≠ [] →
      continueChatStream notes question history true parse chunks true =
        searchLoopActs chunks ++
          [StreamAction.yieldWebSources (uniqueWebSources (collectWebSources chunks))]) ∧
    (uniqueWebSources (collectWebSources chunks) = [] →
      continueChatStream notes question history true parse chunks true =
        searchLoopActs chunks) ∧
    (∀ ws, StreamAction.yieldWebSources ws ∉ searchLoopActs chunks) ∧
    (∀ w ∈ uniqueWebSources (collectWebSources chunks),
      ((collectWebSources chunks).filter (fun v => v.uri == w.uri)).getLast? = some w) ∧
    List.Pairwise (fun v w => v.uri ≠ w.uri) (uniqueWebSources (collectWebSources chunks)) ∧
    uniqueWebSources (collectWebSources
        [⟨some "x", some [⟨some ⟨"https://a.com", some "A"⟩⟩]⟩,
         ⟨some "y", some [⟨some ⟨"https://a.com", some ""⟩⟩]⟩]) =
      [⟨"https://a.com", "https://a.com"⟩] := by
  refine ⟨?_, ?_, ?_, uniqueWebSources_lastWins _, uniqueWebSources_uri_distinct _, by decide⟩
  · intro hne
    have hlen : 0 < (uniqueWebSources (collectWebSources chunks)).length :=
      List.length_pos.2 hne
    simp [continueChatStream, searchTrace, hlen]
  · intro hnil
    simp [continueChatStream, searchTrace, hnil]
  · intro ws hmem
    simp only [searchLoopActs, List.mem_flatMap] at hmem
    obtain ⟨c, _, hc⟩ := hmem
    rcases List.mem_cons.1 hc with h | h
    · cases h
    · rcases htext : c.text with _ | t
      · rw [htext] at h
        simp at h
      · rw [htext] at h
        by_cases ht : t = "" <;> simp [ht] at h

/-- Witness for the amended C5 on the worked two-chunk example. -/
theorem c5_web_dedup_amended_witness :
    continueChatStream [] "q" [] true (fun _ => none)
      [⟨some "x", some [⟨some ⟨"https://a.com", some "A"⟩⟩]⟩,
       ⟨some "y", some [⟨some ⟨"https://a.com", some ""⟩⟩]⟩] true =
      searchLoopActs
        [⟨some "x", some [⟨some ⟨"https://a.com", some "A"⟩⟩]⟩,
         ⟨some "y", some [⟨some ⟨"https://a.com", some ""⟩⟩]⟩] ++
        [StreamAction.yieldWebSources [⟨"https://a.com", "https://a.com"⟩]] := by
  have h := (c5_web_dedup_amended [] "q" [] (fun _ => none)
    [⟨some "x", some [⟨some ⟨"https://a.com", some "A"⟩⟩]⟩,
     ⟨some "y", some [⟨some ⟨"https://a.com", some ""⟩⟩]⟩]).1 (by decide)
  exact h.trans (by decide)

/-! ## Lemmas: comparison and stable sorting -/

/-- Swapping the arguments of the lexicographic comparison negates it. -/
theorem charListCmp_antisym (s : List Char) : ∀ t, charListCmp t s = -charListCmp s t := by
  induction s with
  | nil => intro t; cases t <;> simp [charListCmp]
  | cons a as ih =>
    intro t
    cases t with
    | nil => simp [charListCmp]
    | cons b bs =>
      simp only [charListCmp]
      split_ifs <;> first | omega | exact ih bs

/-- Sign transitivity of the lexicographic comparison: if `z` is strictly
below `x` but not strictly below `y`, then `y` is strictly below `x`. -/
theorem charListCmp_sign_trans (z : List Char) :
    ∀ y x, charListCmp z x < 0 → 0 ≤ charListCmp z y → charListCmp y x < 0 := by
  induction z with
  | nil =>
    intro y x hzx hzy
    cases x with
    | nil => simp [charListCmp] at hzx
    | cons hx tx =>
      cases y with
      | nil => simp [charListCmp]
      | cons hy ty => simp [charListCmp] at hzy
  | cons hz tz ih =>
    intro y x hzx hzy
    cases x with
    | nil => simp [charListCmp] at hzx
    | cons hx tx =>
      cases y with
      | nil => simp [charListCmp]
      | cons hy ty =>
        simp only [charListCmp] at hzx hzy ⊢
        split_ifs at hzx hzy ⊢ <;> first | omega | exact ih ty tx hzx hzy

/-- Swapping the arguments of the Today comparator negates it. -/
theorem todayCmp_antisym (a b : TodaysActionItem) : todayCmp b a = -todayCmp a b := by
  cases ha : timeTruthy a.item.time <;> cases hb : timeTruthy b.item.time <;>
    simp [todayCmp, ha, hb, jsCompareStrings] <;>
    rw [charListCmp_antisym]

/-- Sign transitivity of the Today comparator. -/
theorem todayCmp_sign_trans (z y x : TodaysActionItem)
    (h1 : todayCmp z x < 0) (h2 : ¬todayCmp z y < 0) : todayCmp y x < 0 := by
  cases htz : timeTruthy z.item.time <;> cases hty : timeTruthy y.item.time <;>
      cases htx : timeTruthy x.item.time <;>
    simp [todayCmp, htz, hty, htx, jsCompareStrings] at h1 h2 ⊢ <;>
    first
      | omega
      | exact charListCmp_sign_trans _ _ _ h1 (not_lt.1 h2)
      | exact charListCmp_sign_trans _ _ _ h1 h2

/-- Stable insertion permutes: the result is the inserted element plus the
old list. -/
theorem stableInsert_perm (lt : α → α → Bool) (x : α) (l : List α) :
    List.Perm (stableInsert lt x l) (x :: l) := by
  induction l with
  | nil => exact List.Perm.refl _
  | cons y ys ih =>
    unfold stableInsert
    by_cases h : lt y x = true
    · rw [if_pos h]
      exact (ih.cons y).trans (List.Perm.swap x y ys)
    · rw [if_neg h]

/-- The stable sort is a permutation of its input. -/
theorem stableSortBy_perm (lt : α → α → Bool) (l : List α) :
    List.Perm (stableSortBy lt l) l := by
  induction l with
  | nil => exact List.Perm.refl _
  | cons x xs ih =>
    exact (stableInsert_perm lt x (stableSortBy lt xs)).trans (ih.cons x)

/-- Inserting into a list sorted by `lt` keeps it sorted, for an
asymmetric, sign-transitive strict comparison. -/
theorem pairwise_stableInsert (lt : α → α → Bool)
    (hasym : ∀ a b, lt a b = true → lt b a = false)
    (htrans : ∀ a b c, lt c a = true → lt c b = false → lt b a = true)
    (x : α) (l : List α) (hl : List.Pairwise (fun a b => lt b a = false) l) :
    List.Pairwise (fun a b => lt b a = false) (stableInsert lt x l) := by
  induction l with
  | nil => simp [stableInsert]
  | cons y ys ih =>
    rcases List.pairwise_cons.1 hl with ⟨hy, hys⟩
    unfold stableInsert
    by_cases h : lt y x = true
    · rw [if_pos h]
      refine List.pairwise_cons.2 ⟨?_, ih hys⟩
      intro z hz
      have hz' := (stableInsert_perm lt x ys).mem_iff.1 hz
      rcases List.mem_cons.1 hz' with rfl | hzz
      · exact hasym y z h
      · exact hy z hzz
    · rw [if_neg h]
      refine List.pairwise_cons.2 ⟨?_, hl⟩
      intro z hz
      rcases List.mem_cons.1 hz with rfl | hzz
      · simpa using h
      · by_contra hc
        have hzx : lt z x = true := by simpa using hc
        exact h (htrans x y z hzx (hy z hzz))

/-- The stable sort sorts, for an asymmetric, sign-transitive strict
comparison. -/
theorem pairwise_stableSortBy (lt : α → α → Bool)
    (hasym : ∀ a b, lt a b = true → lt b a = false)
    (htrans : ∀ a b c, lt c a = true → lt c b = false → lt b a = true)
    (l : List α) :
    List.Pairwise (fun a b => lt b a = false) (stableSortBy lt l) := by
  induction l with
  | nil => simp [stableSortBy]
  | cons x xs ih => exact pairwise_stableInsert lt hasym htrans x _ ih

/-! ## Lemmas: the Today aggregation -/

/-- The due-date test succeeds exactly for a non-empty due date equal to the
local today string. -/
theorem isActionItemForToday_iff (localTodayStr dueDate : String) :
    isActionItemForToday localTodayStr dueDate = true ↔
      dueDate ≠ "" ∧ dueDate = localTodayStr := by
  unfold isActionItemForToday
  split <;> simp_all

/-- Soundness of the per-note collection: every collected entry records the
note id and title it was built with, carries the item found at its recorded
index, and satisfies the due-today and not-completed filters. -/
theorem collectTodayItems_mem (noteId noteTitle localTodayStr : String) :
    ∀ (items : List ActionItem) (i : Nat),
      ∀ x ∈ collectTodayItems noteId noteTitle localTodayStr i items,
        x.noteId = noteId ∧ x.noteTitle = noteTitle ∧
        isActionItemForToday localTodayStr x.item.dueDate = true ∧
        x.item.completed = false ∧
        ∃ j, items.get? j = some x.item ∧ x.itemIndex = i + j := by
  intro items
  induction items with
  | nil => intro i x hx; cases hx
  | cons item rest ih =>
    intro i x hx
    unfold collectTodayItems at hx
    rcases List.mem_append.1 hx with hx1 | hx2
    · by_cases hc : (isActionItemForToday localTodayStr item.dueDate && !item.completed) = true
      · rw [if_pos hc] at hx1
        rcases List.mem_singleton.1 hx1 with rfl
        have hc' := hc
        rw [Bool.and_eq_true] at hc'
        obtain ⟨h1, h2⟩ := hc'
        refine ⟨rfl, rfl, h1, by simpa using h2, 0, rfl, by simp⟩
      · rw [if_neg hc] at hx1
        cases hx1
    · obtain ⟨h1, h2, h3, h4, j, hj1, hj2⟩ := ih (i + 1) x hx2
      exact ⟨h1, h2, h3, h4, j + 1, by simpa using hj1, by omega⟩

/-- Completeness of the per-note collection: every incomplete item due today
is collected, at its index. -/
theorem collectTodayItems_complete (noteId noteTitle localTodayStr : String) :
    ∀ (items : List ActionItem) (i j : Nat) (item : ActionItem),
      items.get? j = some item →
      isActionItemForToday localTodayStr item.dueDate = true →
      item.completed = false →
      (⟨noteId, i + j, item, noteTitle⟩ : TodaysActionItem) ∈
        collectTodayItems noteId noteTitle localTodayStr i items := by
  intro items
  induction items with
  | nil => intro i j item hj; cases hj
  | cons it rest ih =>
    intro i j item hj htoday hcomp
    unfold collectTodayItems
    cases j with
    | zero =>
      have hit : it = item := by simpa using hj
      subst hit
      have hc : (isActionItemForToday localTodayStr it.dueDate && !it.completed) = true := by
        rw [htoday, hcomp]
        rfl
      rw [if_pos hc]
      apply List.mem_append.2
      left
      simp
    | succ j' =>
      have hj' : rest.get? j' = some item := by simpa using hj
      have := ih (i + 1) j' item hj' htoday hcomp
      apply List.mem_append.2
      right
      have harith : i + (j' + 1) = (i + 1) + j' := by omega
      rw [harith]
      exact this

/-- Soundness of the all-notes collection. -/
theorem collectTodays_sound (localTodayStr : String) (notes : List ProcessedNoteWithId) :
    ∀ x ∈ collectTodays localTodayStr notes,
      ∃ n ∈ notes, x.noteId = n.id ∧ x.noteTitle = deriveNoteTitle n.refinedNote ∧
        n.actionItems.get? x.itemIndex = some x.item ∧
        x.item.dueDate ≠ "" ∧ x.item.dueDate = localTodayStr ∧
        x.item.completed = false := by
  intro x hx
  unfold collectTodays at hx
  obtain ⟨n, hn, hxn⟩ := List.mem_flatMap.1 hx
  obtain ⟨h1, h2, h3, h4, j, hj1, hj2⟩ :=
    collectTodayItems_mem n.id (deriveNoteTitle n.refinedNote) localTodayStr
      n.actionItems 0 x hxn
  rcases (isActionItemForToday_iff _ _).1 h3 with ⟨hne, heq⟩
  refine ⟨n, hn, h1, h2, ?_, hne, heq, h4⟩
  rw [hj2]
  simpa using hj1

/-- Completeness of the all-notes collection. -/
theorem collectTodays_complete (localTodayStr : String) (notes : List ProcessedNoteWithId) :
    ∀ n ∈ notes, ∀ (j : Nat) (item : ActionItem),
      n.actionItems.get? j = some item →
      item.dueDate ≠ "" → item.dueDate = localTodayStr → item.completed = false →
      (⟨n.id, j, item, deriveNoteTitle n.refinedNote⟩ : TodaysActionItem) ∈
        collectTodays localTodayStr notes := by
  intro n hn j item hj hne heq hcomp
  unfold collectTodays
  refine List.mem_flatMap.2 ⟨n, hn, ?_⟩
  have := collectTodayItems_complete n.id (deriveNoteTitle n.refinedNote) localTodayStr
    n.actionItems 0 j item hj ((isActionItemForToday_iff _ _).2 ⟨hne, heq⟩) hcomp
  simpa using this

/-- Destructing non-negativity of the swapped Today comparator: the earlier
element is timed whenever the later one is, and two timed elements are in
ascending time order. -/
theorem todayCmp_nonneg_dest (a b : TodaysActionItem) (h : ¬todayCmp b a < 0) :
    (timeTruthy a.item.time = false → timeTruthy b.item.time = false) ∧
    (timeTruthy a.item.time = true → timeTruthy b.item.time = true →
      jsCompareStrings (a.item.time.getD "") (b.item.time.getD "") ≤ 0) := by
  cases ha : timeTruthy a.item.time <;> cases hb : timeTruthy b.item.time <;>
    simp [todayCmp, ha, hb, jsCompareStrings] at h ⊢
  rw [charListCmp_antisym] at h
  omega

/-- Claim C6 counterexample: for the worked example note (incomplete items
due today with times "09:00", absent, "08:00"), the aggregator does NOT
produce the claimed order [absent, "08:00", "09:00"]; the comparator
returns -1 when only its first argument has a time, so timed items sort
BEFORE untimed ones and the produced order is ["08:00", "09:00", absent]. -/
theorem c6_today_order_counterexample :
    (getTodaysActionItemsFromNotes "2025-01-02" [choresNote]).map (fun x => x.item.time) =
      [some "08:00", some "09:00", none] ∧
    (getTodaysActionItemsFromNotes "2025-01-02" [choresNote]).map (fun x => x.item.time) ≠
      [none, some "08:00", some "09:00"] := by decide

/-- Claim C6 (amended): the Today aggregator includes an action item iff its
dueDate is non-empty, string-equals the caller's local today, and its
completed flag is false (the result is a permutation of the filtered
collection, sound and complete for it), and sorts the result so that items
WITH a time come first in ascending time order, followed by the items with
no time; in the worked example the produced order is
["08:00", "09:00", absent-time item]. -/
theorem c6_today_aggregator_amended (localTodayStr : String)
    (notes : List ProcessedNoteWithId) :
    List.Perm (getTodaysActionItemsFromNotes localTodayStr notes)
      (collectTodays localTodayStr notes) ∧
    (∀ x ∈ getTodaysActionItemsFromNotes localTodayStr notes,
      ∃ n ∈ notes, x.noteId = n.id ∧
        n.actionItems.get? x.itemIndex = some x.item ∧
        x.item.dueDate ≠ "" ∧ x.item.dueDate = localTodayStr ∧
        x.item.completed = false) ∧
    (∀ n ∈ notes, ∀ (j : Nat) (item : ActionItem),
      n.actionItems.get? j = some item →
      item.dueDate ≠ "" → item.dueDate = localTodayStr → item.completed = false →
      (⟨n.id, j, item, deriveNoteTitle n.refinedNote⟩ : TodaysActionItem) ∈
        getTodaysActionItemsFromNotes localTodayStr notes) ∧
    List.Pairwise
      (fun a b =>
        (timeTruthy a.item.time = false → timeTruthy b.item.time = false) ∧
        (timeTruthy a.item.time = true → timeTruthy b.item.time = true →
          jsCompareStrings (a.item.time.getD "") (b.item.time.getD "") ≤ 0))
      (getTodaysActionItemsFromNotes localTodayStr notes) ∧
    (getTodaysActionItemsFromNotes "2025-01-02" [choresNote]).map (fun x => x.item.time) =
      [some "08:00", some "09:00", none] := by
  have hperm : List.Perm (getTodaysActionItemsFromNotes localTodayStr notes)
      (collectTodays localTodayStr notes) :=
    stableSortBy_perm _ _
  refine ⟨hperm, ?_, ?_, ?_, by decide⟩
  · intro x hx
    obtain ⟨n, hn, h1, _, h3, h4, h5, h6⟩ :=
      collectTodays_sound localTodayStr notes x (hperm.mem_iff.1 hx)
    exact ⟨n, hn, h1, h3, h4, h5, h6⟩
  · intro n hn j item hj hne heq hcomp
    exact hperm.mem_iff.2
      (collectTodays_complete localTodayStr notes n hn j item hj hne heq hcomp)
  · have hasym : ∀ a b : TodaysActionItem,
        (decide (todayCmp a b < 0)) = true → (decide (todayCmp b a < 0)) = false := by
      intro a b hab
      rw [decide_eq_true_eq] at hab
      rw [decide_eq_false_iff_not, todayCmp_antisym]
      omega
    have htrans : ∀ a b c : TodaysActionItem,
        (decide (todayCmp c a < 0)) = true → (decide (todayCmp c b < 0)) = false →
        (decide (todayCmp b a < 0)) = true := by
      intro a b c h1 h2
      rw [decide_eq_true_eq] at h1
      rw [decide_eq_false_iff_not] at h2
      rw [decide_eq_true_eq]
      exact todayCmp_sign_trans c b a h1 h2
    have hp := pairwise_stableSortBy (fun a b => decide (todayCmp a b < 0)) hasym htrans
      (collectTodays localTodayStr notes)
    refine List.Pairwise.imp ?_ hp
    intro a b hab
    rw [decide_eq_false_iff_not] at hab
    exact todayCmp_nonneg_dest a b hab

/-- Witness for the amended C6: the completeness conjunct applied to the
worked example note places its untimed incomplete item, at index 1, in the
aggregated list. -/
theorem c6_today_aggregator_amended_witness :
    (⟨"note1", 1, ⟨"b", "2025-01-02", none, false⟩, "Chores"⟩ : TodaysActionItem) ∈
      getTodaysActionItemsFromNotes "2025-01-02" [choresNote] := by
  have h := (c6_today_aggregator_amended "2025-01-02" [choresNote]).2.2.1
    choresNote (by simp) 1 ⟨"b", "2025-01-02", none, false⟩
    (by decide) (by decide) (by decide) (by decide)
  exact (by decide :
    (⟨choresNote.id, 1, ⟨"b", "2025-01-02", none, false⟩,
      deriveNoteTitle choresNote.refinedNote⟩ : TodaysActionItem) =
    (⟨"note1", 1, ⟨"b", "2025-01-02", none, false⟩, "Chores"⟩ : TodaysActionItem)) ▸ h

/-! ## Lemmas: the reconciliation's working message list -/

/-- One optimistic UI update on a list ending in some message leaves the
prefix untouched and only rewrites the last element. -/
theorem uiUpdate_concat (base : List ChatMessage) (x : ChatMessage) (a : StreamAcc) :
    ∃ y, uiUpdate (base ++ [x]) a = base ++ [y] := by
  unfold uiUpdate
  rw [List.getLast?_concat]
  cases hx : x.content with
  | str s =>
    refine ⟨x, ?_⟩
    simp [hx]
  | obj r =>
    by_cases hr : x.role = Role.model
    · refine ⟨⟨Role.model, MsgContent.obj
        { answer := a.fullAnswer
          sources := if a.collectedSources.length ≠ 0 then a.collectedSources else r.sources
          webSources :=
            if a.collectedWebSources.length ≠ 0 then some a.collectedWebSources
            else r.webSources }⟩, ?_⟩
      simp only [hx]
      rw [if_pos hr, List.dropLast_concat]
    · refine ⟨x, ?_⟩
      simp only [hx]
      rw [if_neg hr]

/-- The whole streaming loop leaves the prefix of the working message list
untouched and only rewrites the last element. -/
theorem streamFoldState_concat (evs : List StreamChunk) :
    ∀ (acc : StreamAcc) (base : List ChatMessage) (x : ChatMessage),
      ∃ y, (evs.foldl
        (fun (p : StreamAcc × List ChatMessage) c =>
          let a := stepAcc p.1 c
          (a, uiUpdate p.2 a)) (acc, base ++ [x])).2 = base ++ [y] := by
  induction evs with
  | nil => intro acc base x; exact ⟨x, rfl⟩
  | cons e rest ih =>
    intro acc base x
    simp only [List.foldl_cons]
    obtain ⟨y1, hy1⟩ := uiUpdate_concat base x (stepAcc acc e)
    rw [hy1]
    exact ih (stepAcc acc e) base y1

/-! ## Theorems: session reconciliation -/

/-- Claim C1: for every exchange, the persistence collaborator is invoked at
most once; whenever it is invoked, the stream outcome was a success, the
invocation is the last step of the timeline after every stream event has
been consumed, and the session it receives has the placeholder replaced by
the assistant message assembled from the stream events (answer text plus
collected citation lists) — so the message handed to persistence is always
the true final content. -/
theorem c1_persistence_protocol (isStreaming : Bool) (question : String)
    (session : ChatSession) (allNotes : List ProcessedNoteWithId)
    (useGoogleSearch : Bool) (outcome : StreamOutcome) :
    (handleSubmit isStreaming question session allNotes useGoogleSearch
        outcome).persisted.length ≤ 1 ∧
    (∀ s ∈ (handleSubmit isStreaming question session allNotes useGoogleSearch
        outcome).persisted,
      ∃ events, outcome = StreamOutcome.ok events ∧
        handleSubmitTrace isStreaming question session outcome =
          events.map HAction.streamEvent ++ [HAction.persistCall s] ∧
        s.messages =
          session.messages ++ [userMessageOf question, assembledFinalMessage events]) := by
  unfold handleSubmit handleSubmitTrace
  by_cases hg : (isStreaming || decide (jsTrim question = "")) = true
  · rw [if_pos hg, if_pos hg]
    simp
  · rw [if_neg hg, if_neg hg]
    cases outcome with
    | ok events =>
      constructor
      · simp
      · intro s hs
        rcases List.mem_singleton.1 hs with rfl
        refine ⟨events, rfl, rfl, ?_⟩
        simp [finalSessionOf, jsSetLast, List.dropLast_concat]
    | err evs =>
      simp

/-- Witness for C1 on a concrete successful one-event exchange. -/
theorem c1_persistence_protocol_witness :
    handleSubmitTrace false "Hi" ⟨"s1", "c", "t", [], []⟩
        (StreamOutcome.ok [⟨some "ans", none, none⟩]) =
      [HAction.streamEvent ⟨some "ans", none, none⟩,
       HAction.persistCall
         (finalSessionOf ⟨"s1", "c", "t", [], []⟩ "Hi" [⟨some "ans", none, none⟩])] := by
  have h := (c1_persistence_protocol false "Hi" ⟨"s1", "c", "t", [], []⟩ [] false
    (StreamOutcome.ok [⟨some "ans", none, none⟩])).2
    (finalSessionOf ⟨"s1", "c", "t", [], []⟩ "Hi" [⟨some "ans", none, none⟩])
    (by decide)
  obtain ⟨events, heq, htr, _⟩ := h
  have hev : ([⟨some "ans", none, none⟩] : List StreamChunk) = events :=
    StreamOutcome.ok.inj heq
  rw [htr, ← hev]
  rfl

/-- Claim C7: on stream completion, the session title kept in state and
handed to persistence is the first 50 characters of the question exactly
when the session's message list was empty before the exchange; otherwise
the title is left unchanged. -/
theorem c7_title_derivation (question : String) (session : ChatSession)
    (allNotes : List ProcessedNoteWithId) (useGoogleSearch : Bool)
    (events : List StreamChunk) (hq : jsTrim question ≠ "") :
    (handleSubmit false question session allNotes useGoogleSearch
        (StreamOutcome.ok events)).stateTitle =
      (if session.messages = [] then jsSubstringTo question 50 else session.title) ∧
    ∀ s ∈ (handleSubmit false question session allNotes useGoogleSearch
        (StreamOutcome.ok events)).persisted,
      s.title =
        (if session.messages = [] then jsSubstringTo question 50 else session.title) := by
  by_cases h : session.messages = [] <;>
    simp [handleSubmit, finalSessionOf, hq, h, List.length_eq_zero]

/-- Witness for C7: a first exchange on an empty session takes the question
as title; a follow-up exchange keeps the old title. -/
theorem c7_title_derivation_witness :
    (handleSubmit false "What is up?" ⟨"s1", "c", "old", [], []⟩ [] false
        (StreamOutcome.ok [])).stateTitle = "What is up?" ∧
    (handleSubmit false "What is up?"
        ⟨"s1", "c", "old", [], [userMessageOf "earlier"]⟩ [] false
        (StreamOutcome.ok [])).stateTitle = "old" := by
  constructor
  · exact ((c7_title_derivation "What is up?" ⟨"s1", "c", "old", [], []⟩ [] false []
      (by decide)).1).trans (by decide)
  · exact ((c7_title_derivation "What is up?"
      ⟨"s1", "c", "old", [], [userMessageOf "earlier"]⟩ [] false []
      (by decide)).1).trans (by decide)

/-- Claim C8: if the stream errors at any point, the reconciliation removes
exactly the last element of the working list (the placeholder), leaving the
earlier messages — including the just-appended user message — unchanged,
shows the error, keeps the title, and never calls persistence. -/
theorem c8_error_rollback (question : String) (session : ChatSession)
    (allNotes : List ProcessedNoteWithId) (useGoogleSearch : Bool)
    (evs : List StreamChunk) (hq : jsTrim question ≠ "") :
    (handleSubmit false question session allNotes useGoogleSearch
        (StreamOutcome.err evs)).stateMessages =
      session.messages ++ [userMessageOf question] ∧
    (handleSubmit false question session allNotes useGoogleSearch
        (StreamOutcome.err evs)).persisted = [] ∧
    (handleSubmit false question session allNotes useGoogleSearch
        (StreamOutcome.err evs)).errorShown = true ∧
    (handleSubmit false question session allNotes useGoogleSearch
        (StreamOutcome.err evs)).stateTitle = session.title := by
  obtain ⟨y, hy⟩ := streamFoldState_concat evs ⟨"", [], []⟩
    (session.messages ++ [userMessageOf question]) placeholderMessage
  refine ⟨?_, by simp [handleSubmit, hq], by simp [handleSubmit, hq],
    by simp [handleSubmit, hq]⟩
  simp only [handleSubmit, hq, streamFoldState]
  simp only [hy]
  simp [List.dropLast_concat]

/-- Witness for C8 on a concrete failing exchange with one event already
received. -/
theorem c8_error_rollback_witness :
    (handleSubmit false "Hi" ⟨"s1", "c", "t", [], []⟩ [] false
        (StreamOutcome.err [⟨some "par", none, none⟩])).stateMessages =
      [userMessageOf "Hi"] ∧
    (handleSubmit false "Hi" ⟨"s1", "c", "t", [], []⟩ [] false
        (StreamOutcome.err [⟨some "par", none, none⟩])).persisted = [] := by
  have h := c8_error_rollback "Hi" ⟨"s1", "c", "t", [], []⟩ [] false
    [⟨some "par", none, none⟩] (by decide)
  exact ⟨(h.1).trans (by decide), h.2.1⟩

/-- Claim C9: every exchange invokes the streaming protocol with exactly
the subset of `allNotes` whose ids are members of the session's noteIds and
with a history equal to the session's message list as it was before the new
user message and the placeholder were appended; the history is a pure value
in this model, so the protocol cannot mutate it. -/
theorem c9_stream_arguments (question : String) (session : ChatSession)
    (allNotes : List ProcessedNoteWithId) (useGoogleSearch : Bool)
    (outcome : StreamOutcome) (hq : jsTrim question ≠ "") :
    (handleSubmit false question session allNotes useGoogleSearch
        outcome).streamCall =
      some ⟨allNotes.filter (fun n => session.noteIds.contains n.id), question,
        session.messages, useGoogleSearch⟩ ∧
    ∀ n : ProcessedNoteWithId,
      n ∈ allNotes.filter (fun n => session.noteIds.contains n.id) ↔
        n ∈ allNotes ∧ session.noteIds.contains n.id = true := by
  constructor
  · cases outcome <;> simp [handleSubmit, hq]
  · intro n
    exact List.mem_filter

/-- Witness for C9 on a concrete exchange: only the note whose id is in the
session's noteIds is passed, and the history is the pre-exchange list. -/
theorem c9_stream_arguments_witness :
    (handleSubmit false "Hi"
        ⟨"s1", "c", "t", ["n1"], [userMessageOf "earlier"]⟩
        [⟨"n1", "c1", "alpha", []⟩, ⟨"n2", "c2", "beta", []⟩] false
        (StreamOutcome.ok [])).streamCall =
      some ⟨[⟨"n1", "c1", "alpha", []⟩], "Hi", [userMessageOf "earlier"], false⟩ := by
  have h := (c9_stream_arguments "Hi"
    ⟨"s1", "c", "t", ["n1"], [userMessageOf "earlier"]⟩
    [⟨"n1", "c1", "alpha", []⟩, ⟨"n2", "c2", "beta", []⟩] false
    (StreamOutcome.ok []) (by decide)).1
  exact h.trans (by decide)

/-! ## Lemmas: the split scan -/

/-- The split worker's result does not depend on the fuel, once the fuel
exceeds the input length. -/
theorem jsSplitAux_fuel (sep : List Char) :
    ∀ (f₁ : Nat) (s : List Char) (f₂ : Nat), s.length < f₁ → s.length < f₂ →
      jsSplitAux sep f₁ s = jsSplitAux sep f₂ s := by
  intro f₁
  induction f₁ with
  | zero =>
    intro s f₂ h1 _
    exact absurd h1 (Nat.not_lt_zero _)
  | succ f ih =>
    intro s f₂ h1 h2
    cases s with
    | nil =>
      cases f₂ with
      | zero => exact absurd h2 (Nat.not_lt_zero _)
      | succ g => rfl
    | cons c rest =>
      cases f₂ with
      | zero => exact absurd h2 (Nat.not_lt_zero _)
      | succ g =>
        have hr : rest.length < f := by
          simp only [List.length_cons] at h1
          omega
        have hg : rest.length < g := by
          simp only [List.length_cons] at h2
          omega
        simp only [jsSplitAux]
        by_cases hst : listStartsWith (c :: rest) sep = true
        · rw [if_pos hst, if_pos hst]
          have hd1 : (List.drop (sep.length - 1) rest).length < f := by
            rw [List.length_drop]
            omega
          have hd2 : (List.drop (sep.length - 1) rest).length < g := by
            rw [List.length_drop]
            omega
          rw [ih (List.drop (sep.length - 1) rest) g hd1 hd2]
        · rw [if_neg hst, if_neg hst]
          rw [ih rest g hr hg]

/-- A list starts with itself, up to a trailing remainder. -/
theorem listStartsWith_self_append (sep r : List Char) :
    listStartsWith (sep ++ r) sep = true := by
  induction sep with
  | nil => cases r <;> rfl
  | cons a as ih => simpa [listStartsWith] using ih

/-- A list that embeds `sep` contains it. -/
theorem listContainsSeq_append_self (sep : List Char) :
    ∀ (a r : List Char), listContainsSeq sep (a ++ (sep ++ r)) = true := by
  intro a
  induction a with
  | nil =>
    intro r
    cases hsep : sep with
    | nil => cases r <;> rfl
    | cons s0 ss =>
      show listContainsSeq (s0 :: ss) ((s0 :: ss) ++ r) = true
      rw [List.cons_append]
      unfold listContainsSeq
      rw [show ((s0 :: (ss ++ r)) : List Char) = (s0 :: ss) ++ r from rfl,
        listStartsWith_self_append]
      rfl
  | cons c a' ih =>
    intro r
    rw [List.cons_append]
    unfold listContainsSeq
    rw [ih r]
    simp

/-- The split scan on `a ++ sep ++ r`, when no match of `sep` starts inside
`a`, cuts exactly after `a`: the first part is `a` and the scan resumes on
`r`. -/
theorem jsSplitAux_first_match (sep : List Char) (hsep : sep ≠ []) :
    ∀ (a : List Char) (r : List Char) (fuel : Nat),
      (a ++ sep ++ r).length < fuel →
      (∀ i, i < a.length → listStartsWith ((a ++ sep ++ r).drop i) sep = false) →
      jsSplitAux sep fuel (a ++ sep ++ r) =
        a :: jsSplitAux sep (r.length + 1) r := by
  intro a
  induction a with
  | nil =>
    intro r fuel hf hno
    obtain ⟨s0, ss, hsepeq⟩ := List.exists_cons_of_ne_nil hsep
    subst hsepeq
    cases fuel with
    | zero => exact absurd hf (Nat.not_lt_zero _)
    | succ f =>
      simp only [List.nil_append, List.cons_append]
      simp only [jsSplitAux]
      rw [if_pos (by
        rw [show ((s0 :: (ss ++ r)) : List Char) = (s0 :: ss) ++ r from rfl]
        exact listStartsWith_self_append _ r)]
      have hdrop : List.drop ((s0 :: ss).length - 1) (ss ++ r) = r := by
        simp only [List.length_cons, Nat.add_sub_cancel]
        exact List.drop_left ss r
      rw [hdrop]
      have hlen : r.length < f := by
        simp only [List.nil_append, List.cons_append, List.length_cons,
          List.length_append] at hf
        omega
      rw [jsSplitAux_fuel (s0 :: ss) f r (r.length + 1) hlen (by omega)]
  | cons ch a' ih =>
    intro r fuel hf hno
    cases fuel with
    | zero => exact absurd hf (Nat.not_lt_zero _)
    | succ f =>
      have hst : listStartsWith (ch :: (a' ++ sep ++ r)) sep = false := by
        have h0 := hno 0 (by simp)
        simpa using h0
      simp only [List.cons_append, List.append_assoc] at hst ⊢
      simp only [jsSplitAux]
      rw [if_neg (by simp [hst])]
      have hf' : (a' ++ (sep ++ r)).length < f := by
        simp only [List.cons_append, List.length_cons, List.length_append] at hf ⊢
        omega
      have hno' : ∀ i, i < a'.length →
          listStartsWith ((a' ++ (sep ++ r)).drop i) sep = false := by
        intro i hi
        have := hno (i + 1) (by simpa using Nat.succ_lt_succ hi)
        simpa using this
      have hrec := ih r f (by simpa [List.append_assoc] using hf') (by
        intro i hi
        simpa [List.append_assoc] using hno' i hi)
      rw [show a' ++ sep ++ r = a' ++ (sep ++ r) from List.append_assoc a' sep r] at hrec
      rw [hrec]

/-- Splitting a text of the shape `a ++ sep ++ b ++ sep ++ c`, where no
match of the separator starts inside `a` (so the shown occurrence is the
first) and none starts inside `b` (so the next shown occurrence is the
second), yields `a` and `b` as the first two parts. -/
theorem jsSplit_double_separator (a b c : String)
    (hA : ∀ i, i < a.data.length →
      listStartsWith ((a.data ++ sourcesSeparator.data ++
        (b.data ++ sourcesSeparator.data ++ c.data)).drop i) sourcesSeparator.data = false)
    (hB : ∀ j, j < b.data.length →
      listStartsWith ((b.data ++ sourcesSeparator.data ++ c.data).drop j)
        sourcesSeparator.data = false) :
    jsSplit ⟨a.data ++ sourcesSeparator.data ++
        (b.data ++ sourcesSeparator.data ++ c.data)⟩ sourcesSeparator =
      a :: b ::
        (jsSplitAux sourcesSeparator.data (c.data.length + 1) c.data).map
          (fun l => ⟨l⟩) := by
  have hsep : sourcesSeparator.data ≠ [] := by decide
  unfold jsSplit
  have h1 := jsSplitAux_first_match sourcesSeparator.data hsep a.data
    (b.data ++ sourcesSeparator.data ++ c.data)
    ((a.data ++ sourcesSeparator.data ++
      (b.data ++ sourcesSeparator.data ++ c.data)).length + 1)
    (by omega)
    (by
      intro i hi
      simpa [List.append_assoc] using hA i hi)
  have h2 := jsSplitAux_first_match sourcesSeparator.data hsep b.data c.data
    ((b.data ++ sourcesSeparator.data ++ c.data).length + 1)
    (by omega)
    (by
      intro j hj
      simpa [List.append_assoc] using hB j hj)
  rw [show (String.mk (a.data ++ sourcesSeparator.data ++
      (b.data ++ sourcesSeparator.data ++ c.data))).data =
      a.data ++ sourcesSeparator.data ++ (b.data ++ sourcesSeparator.data ++ c.data)
    from rfl]
  rw [show a.data ++ sourcesSeparator.data ++
      (b.data ++ sourcesSeparator.data ++ c.data) =
      a.data ++ (sourcesSeparator.data ++ (b.data ++ sourcesSeparator.data ++ c.data))
    from by simp [List.append_assoc]] at h1 ⊢
  rw [show a.data ++ (sourcesSeparator.data ++
      (b.data ++ sourcesSeparator.data ++ c.data)) =
      a.data ++ sourcesSeparator.data ++ (b.data ++ sourcesSeparator.data ++ c.data)
    from by simp [List.append_assoc]] at h1 ⊢
  rw [h1, h2]
  simp

/-- Claim C10: in grounded-only mode, when the buffered text contains the
separator twice — it decomposes as `a ++ sep ++ b ++ sep ++ c` with no
match of the separator starting inside `a` (first occurrence) nor inside
`b` (second occurrence) — `continueChatStream` yields as the answer only
the text `a` strictly before the first occurrence and attempts the
citation parse only on the segment `b` strictly between the two
occurrences; the text `c` after the second occurrence is silently
discarded (the produced trace does not depend on it). -/
theorem c10_double_separator (notes : List ProcessedNoteWithId) (question : String)
    (history : List ChatMessage) (parse : String → Option (List SourceSnippet))
    (chunks : List GenChunk) (a b c : String)
    (hfull : nsFullText chunks =
      ⟨a.data ++ sourcesSeparator.data ++
        (b.data ++ sourcesSeparator.data ++ c.data)⟩)
    (hA : ∀ i, i < a.data.length →
      listStartsWith ((a.data ++ sourcesSeparator.data ++
        (b.data ++ sourcesSeparator.data ++ c.data)).drop i) sourcesSeparator.data = false)
    (hB : ∀ j, j < b.data.length →
      listStartsWith ((b.data ++ sourcesSeparator.data ++ c.data).drop j)
        sourcesSeparator.data = false) :
    continueChatStream notes question history false parse chunks true =
      chunks.map StreamAction.consume ++ [StreamAction.yieldText a] ++
        (match parse b with
         | some ss => [StreamAction.yieldSources ss]
         | none => []) := by
  have hinc : jsIncludes (nsFullText chunks) sourcesSeparator = true := by
    rw [hfull]
    unfold jsIncludes
    rw [show (String.mk (a.data ++ sourcesSeparator.data ++
        (b.data ++ sourcesSeparator.data ++ c.data))).data =
        a.data ++ (sourcesSeparator.data ++ (b.data ++ sourcesSeparator.data ++ c.data))
      from by simp [List.append_assoc]]
    exact listContainsSeq_append_self _ _ _
  have hsplit := jsSplit_double_separator a b c hA hB
  rw [← hfull] at hsplit
  simp [continueChatStream, noSearchTrace, hinc, hsplit, List.getD]

/-- Witness for C10 on a one-chunk stream whose text holds the separator
twice: the answer is the pre-first-separator text and the post-second text
is dropped. -/
theorem c10_double_separator_witness :
    continueChatStream [] "q" [] false (fun _ => none)
      [⟨some "X%%SOURCES_JSON%%Y%%SOURCES_JSON%%Z", none⟩] true =
      [StreamAction.consume ⟨some "X%%SOURCES_JSON%%Y%%SOURCES_JSON%%Z", none⟩,
       StreamAction.yieldText "X"] := by
  have h := c10_double_separator [] "q" [] (fun _ => none)
    [⟨some "X%%SOURCES_JSON%%Y%%SOURCES_JSON%%Z", none⟩] "X" "Y" "Z"
    (by decide) (by decide) (by decide)
  exact h.trans (by decide)

end Vocalyn
